import Mathlib

/-!
Shallow embedding of the streaming confusion-matrix / metrics aggregation core of
the odeon-landcover repository, together with theorems settling the specified
properties of that core.

Embedded sources:
 - odeon/commons/metric/metrics_multiclass.py (class Metrics_Multiclass)
 - odeon/scripts/metrics_binary.py (class Metrics_Binary)
 - odeon/commons/statistics.py (class Statistics)

The base class Metrics (odeon/commons/metric/metrics.py) is not part of the
source tree under verification; its operations (binarize, get_confusion_matrix,
get_metrics_from_obs, to_prob_range) are modelled from the specification, each
such definition carrying a doc comment starting with: Modelled from the spec.

Numeric values are embedded as rationals; machine floats are treated as exact
real arithmetic, which is the level at which the specification states its
numeric contracts.
-/

namespace Odeon

/-- Division with the zero-guard policy of the metric table: when the denominator
is exactly 0 the result is 0 (spec section 4.3). -/
def zeroDiv (a b : ℚ) : ℚ := if b = 0 then 0 else a / b

/-- Round half to even, the tie-break used by numpy round and python round. -/
def roundHalfEven (x : ℚ) : ℤ :=
  if x - (⌊x⌋ : ℚ) < 1/2 then ⌊x⌋
  else if (1/2 : ℚ) < x - (⌊x⌋ : ℚ) then ⌊x⌋ + 1
  else if 2 ∣ ⌊x⌋ then ⌊x⌋ else ⌊x⌋ + 1

/-- Rounding to two decimal places, as numpy round with decimals equal to 2. -/
def round2 (x : ℚ) : ℚ := (roundHalfEven (x * 100) : ℚ) / 100

/-- Rounding to three decimal places, as python round with ndigits equal to 3. -/
def round3 (x : ℚ) : ℚ := (roundHalfEven (x * 1000) : ℚ) / 1000

/-- Elementwise addition of two equal-length numeric arrays (numpy add). -/
def listAdd (a b : List ℚ) : List ℚ := a.zipWith (· + ·) b

/-- Embeds numpy count_nonzero on a flattened array. -/
def countNonzero (l : List ℚ) : ℕ := l.countP (fun x => decide (x ≠ 0))

/-- Embeds numpy digitize with increasing bin edges and right equal to False:
the number of edges less than or equal to x. -/
def digitize (x : ℚ) (bins : List ℚ) : ℕ := bins.countP (fun e => decide (e ≤ x))

/-- Embeds numpy bincount with weights and minlength, for index values below
minlength: entry j is the sum of the weights whose index equals j. -/
def bincountW (ids : List ℕ) (ws : List ℚ) (minlength : ℕ) : List ℚ :=
  (List.range minlength).map
    (fun j => (((ids.zip ws).filter (fun p => p.1 == j)).map Prod.snd).sum)

/-- Embeds numpy bincount without weights and with minlength, for index values
below minlength: entry j counts the indices equal to j. -/
def bincountC (ids : List ℕ) (minlength : ℕ) : List ℚ :=
  (List.range minlength).map (fun j => (ids.countP (fun k => k == j) : ℚ))

/-- Embeds the counts of numpy histogram for given edges: bins are right-open,
except the last one which is closed. -/
def histogramCounts (xs : List ℚ) (bins : List ℚ) : List ℚ :=
  (List.range (bins.length - 1)).map (fun j =>
    (xs.countP (fun x =>
      decide (bins.getD j 0 ≤ x) &&
      (if j + 2 = bins.length then decide (x ≤ bins.getD (j+1) 0)
       else decide (x < bins.getD (j+1) 0))) : ℚ))

/-- Embeds numpy boolean-mask selection followed by elementwise division:
num[den != 0] / den[den != 0], as used for the calibration curve export. -/
def selectNonzero (num den : List ℚ) : List ℚ :=
  ((num.zip den).filter (fun p => decide (p.2 ≠ 0))).map (fun p => p.1 / p.2)

/-- Modelled from the spec: the binary mode of Metrics.binarize (base class
Metrics is not under src). Elementwise strict greater-than against the
threshold, yielding hard labels 0 or 1 (spec section 4.1). -/
def binarize_binary (pred : List ℚ) (threshold : ℚ) : List ℚ :=
  pred.map (fun p => if threshold < p then (1 : ℚ) else 0)

/-- Modelled from the spec: the argmax rule of the multiclass mode of
Metrics.binarize (base class Metrics is not under src): index of the maximal
entry, ties resolving to the lowest index (spec section 4.1). -/
def argmaxIdx : List ℚ → ℕ
  | [] => 0
  | x :: xs =>
      let j := argmaxIdx xs
      if x < xs.getD j 0 then j + 1 else 0

/-- Confusion matrices are embedded as entrywise rational functions on indices. -/
abbrev CMat (n : ℕ) := Fin n → Fin n → ℚ

/-- Modelled from the spec: Metrics.get_confusion_matrix with revert_order False
(base class Metrics is not under src): entry (r, c) counts the positions whose
true class is r and predicted class is c (spec section 4.2). -/
def get_confusion_matrix (yTrue yPred : List ℕ) (n : ℕ) : CMat n :=
  fun r c =>
    (((yTrue.zip yPred).countP (fun p => decide (p.1 = r.1) && decide (p.2 = c.1))) : ℚ)

/-- Count of positions where the truth and the prediction have the given
zero/nonzero statuses; a value is positive when it is nonzero. -/
def pairCount (yTrue yPred : List ℚ) (tPos pPos : Bool) : ℕ :=
  (yTrue.zip yPred).countP
    (fun p => (decide (p.1 ≠ 0) == tPos) && (decide (p.2 ≠ 0) == pPos))

/-- Modelled from the spec: Metrics.get_confusion_matrix with revert_order True
for the one-vs-rest 2 by 2 case (base class Metrics is not under src): the
matrix [[tp, fn], [fp, tn]] (spec sections 3 and 4.2). -/
def get_confusion_matrix_revert (yTrue yPred : List ℚ) : CMat 2 :=
  fun r c =>
    if r.1 = 0 then
      if c.1 = 0 then (pairCount yTrue yPred true true : ℚ)
      else (pairCount yTrue yPred true false : ℚ)
    else
      if c.1 = 0 then (pairCount yTrue yPred false true : ℚ)
      else (pairCount yTrue yPred false false : ℚ)

/-- Modelled from the spec: Metrics.to_prob_range (base class Metrics is not
under src): raw integer-range values are divided by the maximum representable
value of the configured bit depth (spec sections 3 and 6). -/
def to_prob_range (divisor : ℚ) (xs : List ℚ) : List ℚ := xs.map (fun x => x / divisor)

/-- The fixed metric set computed from one (tp, fn, fp, tn) quadruple. -/
structure MetricsSet where
  Accuracy : ℚ
  Precision : ℚ
  Recall : ℚ
  Specificity : ℚ
  F1 : ℚ
  IoU : ℚ
  Dice : ℚ
  FPR : ℚ
deriving DecidableEq

/-- The all-zero metric set, also the placeholder for out-of-range accesses. -/
def zeroMetrics : MetricsSet :=
  { Accuracy := 0, Precision := 0, Recall := 0, Specificity := 0,
    F1 := 0, IoU := 0, Dice := 0, FPR := 0 }

/-- Modelled from the spec: Metrics.get_metrics_from_obs (base class Metrics is
not under src): the metric table of spec section 4.3 with the zero-guard policy,
a metric whose denominator is exactly 0 silently yielding 0. -/
def get_metrics_from_obs (tp fn fp tn : ℚ) : MetricsSet :=
  let p := zeroDiv tp (tp + fp)
  let r := zeroDiv tp (tp + fn)
  { Accuracy := zeroDiv (tp + tn) (tp + fn + fp + tn)
    Precision := p
    Recall := r
    Specificity := zeroDiv tn (tn + fp)
    F1 := zeroDiv (2 * p * r) (p + r)
    IoU := zeroDiv tp (tp + fn + fp)
    Dice := zeroDiv (2 * tp) (2 * tp + fn + fp)
    FPR := zeroDiv fp (fp + tn) }

/-- One (tp, fn, fp, tn) quadruple of observations extracted for one class. -/
structure MetricsObs where
  tp : ℚ
  fn : ℚ
  fp : ℚ
  tn : ℚ
deriving DecidableEq

/-- Embeds Metrics_Multiclass.get_obs_by_class_from_cm (metrics_multiclass.py,
lines 282 to 303) at one class index: tp is the diagonal entry, fn the row sum
minus tp, fp the column sum minus tp, tn the total sum minus the row and column
sums plus tp. -/
def get_obs_by_class_from_cm (n : ℕ) (cm : CMat n) (i : Fin n) : MetricsObs :=
  { tp := cm i i
    fn := (∑ j, cm i j) - cm i i
    fp := (∑ j, cm j i) - cm i i
    tn := (∑ j, ∑ k, cm j k) - (∑ j, cm i j) - (∑ j, cm j i) + cm i i }

/-- The per-class one-vs-rest 2 by 2 matrix [[tp, fn], [fp, tn]] built in
Metrics_Multiclass.get_metrics_from_cm (metrics_multiclass.py, lines 322 to 324). -/
def obsToCm2 (o : MetricsObs) : CMat 2 :=
  fun r c =>
    if r.1 = 0 then (if c.1 = 0 then o.tp else o.fn)
    else (if c.1 = 0 then o.fp else o.tn)

/-- The micro confusion matrix of Metrics_Multiclass.get_metrics_from_cm
(metrics_multiclass.py, lines 330 to 337): the sum of the per-class 2 by 2
matrices, weighted by the user weights when those are supplied. -/
def micro_cm (n : ℕ) (cm : CMat n) (weights : Option (List ℚ)) : CMat 2 :=
  fun r c =>
    match weights with
    | none => ∑ i : Fin n, obsToCm2 (get_obs_by_class_from_cm n cm i) r c
    | some w => ∑ i : Fin n, w.getD i.1 0 * obsToCm2 (get_obs_by_class_from_cm n cm i) r c

/-- The micro metric set of Metrics_Multiclass.get_metrics_from_cm
(metrics_multiclass.py, lines 339 to 342). -/
def metrics_micro (n : ℕ) (cm : CMat n) (weights : Option (List ℚ)) : MetricsSet :=
  get_metrics_from_obs (micro_cm n cm weights 0 0) (micro_cm n cm weights 0 1)
    (micro_cm n cm weights 1 0) (micro_cm n cm weights 1 1)

/-- The per-class metric sets of Metrics_Multiclass.get_metrics_from_cm
(metrics_multiclass.py, lines 321 to 328), listed in class order. -/
def metrics_by_class (n : ℕ) (cm : CMat n) : List MetricsSet :=
  (List.finRange n).map (fun i =>
    let o := get_obs_by_class_from_cm n cm i
    get_metrics_from_obs o.tp o.fn o.fp o.tn)

/-- The micro report row of Metrics_Multiclass.metrics_to_df_reports
(metrics_multiclass.py, lines 375 to 377): the OA column holds the micro
Precision and the IoU column holds the micro IoU. -/
def micro_report (n : ℕ) (cm : CMat n) (weights : Option (List ℚ)) : ℚ × ℚ :=
  ((metrics_micro n cm weights).Precision, (metrics_micro n cm weights).IoU)

/-- One dataset sample in pixel-major layout: for every pixel the per-class mask
vector and the per-class prediction vector (source arrays of shape (H, W, C),
flattened over the two spatial axes), plus the file identifier. -/
structure MSample where
  mask : List (List ℚ)
  pred : List (List ℚ)
  name_file : String
deriving DecidableEq

/-- Channel i of a pixel-major array: the flattened array a[:, :, i]. -/
def channelOf (a : List (List ℚ)) (i : ℕ) : List ℚ := a.map (fun px => px.getD i 0)

/-- The joint multiclass confusion matrix of one sample: argmax binarization of
mask and prediction, then the C by C co-occurrence matrix
(metrics_multiclass.py, lines 208 to 209). -/
def joint_cm (n : ℕ) (s : MSample) : CMat n :=
  get_confusion_matrix (s.mask.map argmaxIdx) (s.pred.map argmaxIdx) n

/-- Configuration of a Metrics_Multiclass run: class count, operating threshold,
threshold range, calibration bin edges, probability-range flag with the bit
depth divisor, optional user weights, and the per-patch export flag. -/
structure MConfig where
  nbrClass : ℕ
  threshold : ℚ
  thresholdRange : List ℚ
  bins : List ℚ
  inProbRange : Bool
  divisor : ℚ
  weights : Option (List ℚ)
  getMetricsPerPatch : Bool

/-- One row of the per-patch metrics table (metrics_multiclass.py, lines 212
to 236): file name, micro OA and IoU, per-class metric sets, the seven mean
metrics and the four macro metrics. -/
structure PatchRow where
  nameF : String
  oa : ℚ
  microIoU : ℚ
  perClass : List MetricsSet
  meanMetrics : List ℚ
  macroMetrics : List ℚ
deriving DecidableEq

/-- Builds the per-patch row of one sample from its own single-sample confusion
matrix (metrics_multiclass.py, lines 213 to 236); when no user weights are
supplied the mean uses weight 1 for every class. -/
def mkPatchRow (n : ℕ) (weights : Option (List ℚ)) (nm : String) (cm : CMat n) : PatchRow :=
  let mbc := metrics_by_class n cm
  let mm := metrics_micro n cm weights
  let w := weights.getD (List.replicate n 1)
  let meanOf := fun (f : MetricsSet → ℚ) =>
    (∑ i ∈ Finset.range n, w.getD i 0 * f (mbc.getD i zeroMetrics)) / n
  { nameF := nm
    oa := mm.Precision
    microIoU := mm.IoU
    perClass := mbc
    meanMetrics :=
      [meanOf MetricsSet.Accuracy, meanOf MetricsSet.Precision, meanOf MetricsSet.Recall,
       meanOf MetricsSet.Specificity, meanOf MetricsSet.F1, meanOf MetricsSet.IoU,
       meanOf MetricsSet.Dice]
    macroMetrics :=
      [meanOf MetricsSet.Precision, meanOf MetricsSet.Recall, meanOf MetricsSet.F1,
       meanOf MetricsSet.IoU] }

/-- The running accumulators of Metrics_Multiclass.scan_dataset: the macro
confusion matrix, the per-threshold per-class one-vs-rest matrices (keyed by
threshold value and class index), the calibration accumulators per class, the
per-class positive pixel counters and the per-patch rows keyed by sample index. -/
structure Accum (n : ℕ) where
  macroCmA : CMat n
  cmsOneClass : ℚ → ℕ → CMat 2
  histCounts : ℕ → List ℚ
  binSums : ℕ → List ℚ
  binTrue : ℕ → List ℚ
  binTotal : ℕ → List ℚ
  counts : ℕ → ℕ
  patchRows : ℕ → Option PatchRow

/-- The freshly allocated accumulators of Metrics_Multiclass.scan_dataset
(metrics_multiclass.py, lines 175 to 187). -/
def initAccum (cfg : MConfig) : Accum cfg.nbrClass :=
  { macroCmA := fun _ _ => 0
    cmsOneClass := fun _ _ => (fun _ _ => 0)
    histCounts := fun _ => List.replicate (cfg.bins.length - 1) 0
    binSums := fun _ => List.replicate cfg.bins.length 0
    binTrue := fun _ => List.replicate cfg.bins.length 0
    binTotal := fun _ => List.replicate cfg.bins.length 0
    counts := fun _ => 0
    patchRows := fun _ => none }

/-- The prediction values used for the calibration update of class i on sample
s: the raw channel when the inputs already live in the probability range,
otherwise the channel rescaled by the bit depth divisor (metrics_multiclass.py,
lines 240 to 244). -/
def predHist (cfg : MConfig) (s : MSample) (i : ℕ) : List ℚ :=
  if cfg.inProbRange then channelOf s.pred i else to_prob_range cfg.divisor (channelOf s.pred i)

/-- The calibration bin index of every prediction value of class i on sample s
(metrics_multiclass.py, line 249). -/
def binIds (cfg : MConfig) (s : MSample) (i : ℕ) : List ℕ :=
  (predHist cfg s i).map (fun p => digitize p cfg.bins - 1)

/-- One iteration of the innermost loop of Metrics_Multiclass.scan_dataset
(metrics_multiclass.py, lines 193 to 257) for sample s at dataset index idx,
class index i and threshold t. The counter and one-vs-rest updates run
unconditionally; the macro matrix and per-patch updates run when t equals the
operating threshold and i equals 0; the calibration updates run when t equals
the operating threshold. The sequential attribute updates of the source touch
pairwise distinct accumulators, so the iteration is a single simultaneous
record update with one guard per field. -/
def stepCT (cfg : MConfig) (idx : ℕ) (s : MSample) (i : ℕ) (t : ℚ)
    (acc : Accum cfg.nbrClass) : Accum cfg.nbrClass :=
  { counts := fun c =>
      if c = i then acc.counts c + countNonzero (channelOf s.mask i) else acc.counts c
    cmsOneClass := fun th c =>
      if th = t ∧ c = i then
        acc.cmsOneClass th c
          + get_confusion_matrix_revert (channelOf s.mask i)
              (binarize_binary (channelOf s.pred i) t)
      else acc.cmsOneClass th c
    macroCmA :=
      if t = cfg.threshold ∧ i = 0 then acc.macroCmA + joint_cm cfg.nbrClass s
      else acc.macroCmA
    patchRows := fun k =>
      if (t = cfg.threshold ∧ i = 0) ∧ cfg.getMetricsPerPatch ∧ k = idx then
        some (mkPatchRow cfg.nbrClass cfg.weights s.name_file (joint_cm cfg.nbrClass s))
      else acc.patchRows k
    histCounts := fun c =>
      if t = cfg.threshold ∧ c = i then
        listAdd (acc.histCounts c) (histogramCounts (predHist cfg s i) cfg.bins)
      else acc.histCounts c
    binSums := fun c =>
      if t = cfg.threshold ∧ c = i then
        listAdd (acc.binSums c) (bincountW (binIds cfg s i) (predHist cfg s i) cfg.bins.length)
      else acc.binSums c
    binTrue := fun c =>
      if t = cfg.threshold ∧ c = i then
        listAdd (acc.binTrue c) (bincountW (binIds cfg s i) (channelOf s.mask i) cfg.bins.length)
      else acc.binTrue c
    binTotal := fun c =>
      if t = cfg.threshold ∧ c = i then
        listAdd (acc.binTotal c) (bincountC (binIds cfg s i) cfg.bins.length)
      else acc.binTotal c }

/-- The threshold loop of Metrics_Multiclass.scan_dataset for one sample and one
class (metrics_multiclass.py, line 193). -/
def stepThresholds (cfg : MConfig) (idx : ℕ) (s : MSample) (i : ℕ)
    (acc : Accum cfg.nbrClass) : Accum cfg.nbrClass :=
  cfg.thresholdRange.foldl (fun a t => stepCT cfg idx s i t a) acc

/-- The class loop of Metrics_Multiclass.scan_dataset for one sample
(metrics_multiclass.py, line 191). -/
def stepSample (cfg : MConfig) (acc : Accum cfg.nbrClass) (p : ℕ × MSample) :
    Accum cfg.nbrClass :=
  (List.range cfg.nbrClass).foldl (fun a i => stepThresholds cfg p.1 p.2 i a) acc

/-- Embeds the full dataset pass of Metrics_Multiclass.scan_dataset
(metrics_multiclass.py, lines 163 to 280): all accumulators are freshly
allocated, then every sample is processed in stream order. -/
def scan_dataset (cfg : MConfig) (ds : List MSample) : Accum cfg.nbrClass :=
  ds.enum.foldl (stepSample cfg) (initAccum cfg)

/-- Embeds calling scan_dataset on an aggregator object whose accumulator
attributes currently hold prev: the method reassigns every accumulator attribute
before the loop (metrics_multiclass.py, lines 175 to 187), so prev is never
read. -/
def run_scan (cfg : MConfig) (_prev : Accum cfg.nbrClass) (ds : List MSample) :
    Accum cfg.nbrClass :=
  scan_dataset cfg ds

/-- The exported calibration curve ordinates of one class: the fraction of true
labels in each nonempty bin (metrics_multiclass.py, lines 266 to 268). -/
def prob_true (cfg : MConfig) (ds : List MSample) (c : ℕ) : List ℚ :=
  selectNonzero ((scan_dataset cfg ds).binTrue c) ((scan_dataset cfg ds).binTotal c)

/-- The exported calibration curve abscissas of one class: the mean prediction
mass in each nonempty bin (metrics_multiclass.py, lines 269 to 270). -/
def prob_pred (cfg : MConfig) (ds : List MSample) (c : ℕ) : List ℚ :=
  selectNonzero ((scan_dataset cfg ds).binSums c) ((scan_dataset cfg ds).binTotal c)

/-- The Weighted avg entry of the macro report for one metric column m
(metrics_multiclass.py, lines 359 to 369): the per-class metric weighted by the
per-class counters, divided by their total, rounded to 2 decimal places. -/
def weighted_avg_export (m : ℕ → ℚ) (counts : ℕ → ℕ) (n : ℕ) : ℚ :=
  round2 ((∑ i ∈ Finset.range n, m i * (counts i : ℚ)) /
    (∑ i ∈ Finset.range n, ((counts i : ℕ) : ℚ)))

/-- The User weighted avg entry of the macro report for one metric column m
(metrics_multiclass.py, lines 366 to 373): the per-class metric weighted by the
user weights, divided by the class count, rounded to 2 decimal places. -/
def user_weighted_avg_export (m : ℕ → ℚ) (w : List ℚ) (n : ℕ) : ℚ :=
  round2 ((∑ i ∈ Finset.range n, m i * w.getD i 0) / n)

/-- The Weighted avg entry actually exported after a scan, for the metric column
selected by f, read off the per-class table of the macro confusion matrix. -/
def df_macro_weighted_avg (cfg : MConfig) (ds : List MSample) (f : MetricsSet → ℚ) : ℚ :=
  weighted_avg_export
    (fun i => f ((metrics_by_class cfg.nbrClass ((scan_dataset cfg ds).macroCmA)).getD i zeroMetrics))
    ((scan_dataset cfg ds).counts) cfg.nbrClass

/-- Total positive pixel count of class c over all sample masks. -/
def posPixels (ds : List MSample) (c : ℕ) : ℕ :=
  (ds.map (fun s => countNonzero (channelOf s.mask c))).sum

/-- One sample of a Metrics_Binary run: the flattened mask and prediction. -/
structure BSample where
  mask : List ℚ
  pred : List ℚ
deriving DecidableEq

/-- Configuration of a Metrics_Binary run: operating threshold, threshold range,
calibration bin edges, probability-range flag and bit depth divisor. -/
structure BConfig where
  threshold : ℚ
  thresholdRange : List ℚ
  bins : List ℚ
  inProbRange : Bool
  divisor : ℚ

/-- The running accumulators of Metrics_Binary.get_metrics_by_threshold: the
per-threshold confusion matrices keyed by threshold value, and the four
calibration accumulators. -/
structure BAccum where
  cms : ℚ → CMat 2
  histCounts : List ℚ
  binSums : List ℚ
  binTrue : List ℚ
  binTotal : List ℚ

/-- The freshly allocated accumulators of Metrics_Binary.get_metrics_by_threshold
(metrics_binary.py, lines 54 to 57). -/
def initBAccum (cfg : BConfig) : BAccum :=
  { cms := fun _ => (fun _ _ => 0)
    histCounts := List.replicate (cfg.bins.length - 1) 0
    binSums := List.replicate cfg.bins.length 0
    binTrue := List.replicate cfg.bins.length 0
    binTotal := List.replicate cfg.bins.length 0 }

/-- The prediction values used for the calibration update of one binary sample
(metrics_binary.py, lines 71 to 73). -/
def bPredHist (cfg : BConfig) (s : BSample) : List ℚ :=
  if cfg.inProbRange then s.pred else to_prob_range cfg.divisor s.pred

/-- The calibration bin index of every prediction value of one binary sample
(metrics_binary.py, line 78). -/
def bIds (cfg : BConfig) (s : BSample) : List ℕ :=
  (bPredHist cfg s).map (fun p => digitize p cfg.bins - 1)

/-- The calibration update block of Metrics_Binary.get_metrics_by_threshold for
one sample (metrics_binary.py, lines 69 to 84). -/
def bCalibUpdate (cfg : BConfig) (acc : BAccum) (s : BSample) : BAccum :=
  { acc with
    histCounts := listAdd acc.histCounts (histogramCounts (bPredHist cfg s) cfg.bins)
    binSums := listAdd acc.binSums (bincountW (bIds cfg s) (bPredHist cfg s) cfg.bins.length)
    binTrue := listAdd acc.binTrue (bincountW (bIds cfg s) s.mask cfg.bins.length)
    binTotal := listAdd acc.binTotal (bincountC (bIds cfg s) cfg.bins.length) }

/-- One iteration of the inner sample loop of
Metrics_Binary.get_metrics_by_threshold at threshold t (metrics_binary.py,
lines 61 to 84): the confusion matrix of the sample is always added to the
matrix of the current threshold; the calibration block runs when t equals the
first value of the threshold range. The confusion matrix convention follows the
spec one-vs-rest orientation [[tp, fn], [fp, tn]], consistent with the ravel
into (tp, fn, fp, tn) at line 101 of metrics_binary.py. -/
def bStep (cfg : BConfig) (t : ℚ) (acc : BAccum) (s : BSample) : BAccum :=
  let acc1 := { acc with
    cms := fun th =>
      if th = t then acc.cms th + get_confusion_matrix_revert s.mask (binarize_binary s.pred t)
      else acc.cms th }
  if t = cfg.thresholdRange.getD 0 0 then bCalibUpdate cfg acc1 s else acc1

/-- Embeds the loop nest of Metrics_Binary.get_metrics_by_threshold
(metrics_binary.py, lines 59 to 84): thresholds outermost, samples innermost. -/
def bScan (cfg : BConfig) (ds : List BSample) : BAccum :=
  cfg.thresholdRange.foldl (fun a t => ds.foldl (bStep cfg t) a) (initBAccum cfg)

/-- The reference accumulation in which every sample contributes its calibration
update exactly once. -/
def bCalibOnce (cfg : BConfig) (ds : List BSample) : BAccum :=
  ds.foldl (bCalibUpdate cfg) (initBAccum cfg)

/-- The bit depth mapping of Statistics (statistics.py, lines 86 to 90), as an
association list from tag to maximum representable pixel value. -/
def depth_dict : List (String × ℕ) :=
  [("keep", 1), ("8 bits", 255), ("12 bits", 4095), ("14 bits", 16383), ("16 bits", 65535)]

/-- The bit depth tag retained by Statistics after validation (statistics.py,
lines 92 to 98): a known tag is kept, an unknown tag falls back to the default
tag of 8 bits (with a warning in the source, a pure fallback here). -/
def resolve_bit_depth (tag : String) : String :=
  if (depth_dict.map Prod.fst).contains tag then tag else ("8 bits")

/-- The rescale divisor actually used downstream: the depth_dict entry of the
retained bit depth tag (statistics.py, line 142). -/
def max_pixel_value (tag : String) : ℕ :=
  (depth_dict.lookup (resolve_bit_depth tag)).getD 0

/-- Embeds Statistics.get_bins (statistics.py, lines 126 to 147): when no bins
are supplied they are synthesized from the bin count and the maximum pixel
value; the normalized bins divide by the maximum pixel value. -/
def statistics_bins (tag : String) (bins : Option (List ℚ)) (nbrBins : ℕ) :
    List ℚ × List ℚ :=
  let m : ℚ := (max_pixel_value tag : ℚ)
  let b := match bins with
    | none => ((List.range nbrBins).map (fun i => round3 ((i : ℚ) / (nbrBins : ℚ) * m))) ++ [m]
    | some bs => bs
  (b, b.map (fun x => round3 (x / m)))

/-- Concrete macro confusion matrix on three classes whose only entry is one
off-diagonal observation. -/
def cmC4a : CMat 3 := fun i j => if i.1 = 0 then (if j.1 = 1 then 1 else 0) else 0

/-- Concrete macro confusion matrix on two classes whose first row is all ones. -/
def cmC4b : CMat 2 := fun i _ => if i.1 = 0 then 1 else 0

/-- A concrete one-class configuration used by the witnesses: one threshold
equal to the operating threshold, bins 0 and 1, inputs already in probability
range, no user weights, no per-patch export. -/
def cfgW : MConfig :=
  { nbrClass := 1
    threshold := 1/2
    thresholdRange := [1/2]
    bins := [0, 1]
    inProbRange := true
    divisor := 1
    weights := none
    getMetricsPerPatch := false }

/-- A concrete one-sample dataset used by the witnesses: a single positive
pixel. -/
def dsW : List MSample := [{ mask := [[1]], pred := [[1]], name_file := "a" }]

/-- The four calibration accumulators of a binary run, as one tuple. -/
def bCalibs (acc : BAccum) : List ℚ × List ℚ × List ℚ × List ℚ :=
  (acc.histCounts, acc.binSums, acc.binTrue, acc.binTotal)

/-- The calibration update of one binary sample, on the accumulator tuple. -/
def bCalibStepQ (cfg : BConfig) (q : List ℚ × List ℚ × List ℚ × List ℚ) (s : BSample) :
    List ℚ × List ℚ × List ℚ × List ℚ :=
  (listAdd q.1 (histogramCounts (bPredHist cfg s) cfg.bins),
   listAdd q.2.1 (bincountW (bIds cfg s) (bPredHist cfg s) cfg.bins.length),
   listAdd q.2.2.1 (bincountW (bIds cfg s) s.mask cfg.bins.length),
   listAdd q.2.2.2 (bincountC (bIds cfg s) cfg.bins.length))

/-- A concrete binary configuration whose threshold range repeats its first
value. -/
def cfgB : BConfig :=
  { threshold := 1/2
    thresholdRange := [1/2, 1/2]
    bins := [0, 1]
    inProbRange := true
    divisor := 1 }

/-- A concrete binary configuration with two distinct thresholds and an
operating threshold that is not a member of the threshold range. -/
def cfgB2 : BConfig :=
  { threshold := 9/10
    thresholdRange := [3/10, 7/10]
    bins := [0, 1]
    inProbRange := true
    divisor := 1 }

/-- A concrete binary sample: a single positive pixel. -/
def sB : BSample := { mask := [1], pred := [1] }

/-- A concrete one-sample binary dataset: a single positive pixel. -/
def dsB : List BSample := [sB]

/-- The per-class per-bin calibration accumulators keep the length given by the
bin edge list throughout the scan. -/
def calibLensOk (cfg : MConfig) (acc : Accum cfg.nbrClass) : Prop :=
  ∀ c, (acc.binSums c).length = cfg.bins.length
    ∧ (acc.binTrue c).length = cfg.bins.length
    ∧ (acc.binTotal c).length = cfg.bins.length

/-! Helper lemmas. -/

lemma zeroDiv_zero_den (a b : ℚ) (h : b = 0) : zeroDiv a b = 0 := by
  simp [zeroDiv, h]

lemma zeroDiv_double (x y : ℚ) : zeroDiv (2 * x) (2 * y) = zeroDiv x y := by
  unfold zeroDiv
  rcases eq_or_ne y 0 with hy | hy
  · simp [hy]
  · have h2 : (2 : ℚ) * y ≠ 0 := by
      intro h
      exact hy (by linarith)
    rw [if_neg h2, if_neg hy]
    rw [mul_div_mul_left _ _ (by norm_num : (2 : ℚ) ≠ 0)]

lemma f1_collapse (p : ℚ) : zeroDiv (2 * p * p) (p + p) = p := by
  unfold zeroDiv
  split_ifs with h
  · have hp : p = 0 := by linarith
    simp [hp]
  · have hp : p ≠ 0 := by
      intro hp
      exact h (by rw [hp]; ring)
    field_simp
    ring

/-! Claim theorems. -/

/-- C1: for every confusion matrix cm and class index i, the quadruple extracted
by get_obs_by_class_from_cm satisfies tp = cm i i, fn = row sum minus tp,
fp = column sum minus tp, tn = total sum minus row sum minus column sum plus tp,
and tp + fn + fp + tn equals the total sum of all entries. -/
theorem C1_quadruple_from_matrix (n : ℕ) (cm : CMat n) (i : Fin n) :
    (get_obs_by_class_from_cm n cm i).tp = cm i i
  ∧ (get_obs_by_class_from_cm n cm i).fn = (∑ j, cm i j) - cm i i
  ∧ (get_obs_by_class_from_cm n cm i).fp = (∑ j, cm j i) - cm i i
  ∧ (get_obs_by_class_from_cm n cm i).tn
      = (∑ j, ∑ k, cm j k) - (∑ j, cm i j) - (∑ j, cm j i) + cm i i
  ∧ (get_obs_by_class_from_cm n cm i).tp + (get_obs_by_class_from_cm n cm i).fn
      + (get_obs_by_class_from_cm n cm i).fp + (get_obs_by_class_from_cm n cm i).tn
      = ∑ j, ∑ k, cm j k := by
  refine ⟨rfl, rfl, rfl, rfl, ?_⟩
  simp only [get_obs_by_class_from_cm]
  ring

/-- C2: every metric of get_metrics_from_obs whose denominator is exactly 0
yields 0 instead of failing, and at the quadruple (0, 0, 0, 0) every metric of
the table is 0. -/
theorem C2_zero_guard (tp fn fp tn : ℚ) :
    (tp + fn + fp + tn = 0 → (get_metrics_from_obs tp fn fp tn).Accuracy = 0)
  ∧ (tp + fp = 0 → (get_metrics_from_obs tp fn fp tn).Precision = 0)
  ∧ (tp + fn = 0 → (get_metrics_from_obs tp fn fp tn).Recall = 0)
  ∧ (tn + fp = 0 → (get_metrics_from_obs tp fn fp tn).Specificity = 0)
  ∧ ((get_metrics_from_obs tp fn fp tn).Precision + (get_metrics_from_obs tp fn fp tn).Recall = 0
      → (get_metrics_from_obs tp fn fp tn).F1 = 0)
  ∧ (tp + fn + fp = 0 → (get_metrics_from_obs tp fn fp tn).IoU = 0)
  ∧ (2 * tp + fn + fp = 0 → (get_metrics_from_obs tp fn fp tn).Dice = 0)
  ∧ (fp + tn = 0 → (get_metrics_from_obs tp fn fp tn).FPR = 0)
  ∧ get_metrics_from_obs 0 0 0 0 = zeroMetrics := by
  refine ⟨?_, ?_, ?_, ?_, ?_, ?_, ?_, ?_, ?_⟩
  · exact fun h => zeroDiv_zero_den _ _ h
  · exact fun h => zeroDiv_zero_den _ _ h
  · exact fun h => zeroDiv_zero_den _ _ h
  · exact fun h => zeroDiv_zero_den _ _ (by linarith)
  · exact fun h => zeroDiv_zero_den _ _ h
  · exact fun h => zeroDiv_zero_den _ _ h
  · exact fun h => zeroDiv_zero_den _ _ h
  · exact fun h => zeroDiv_zero_den _ _ (by linarith)
  · simp [get_metrics_from_obs, zeroMetrics, zeroDiv]

/-- Witness for C2 at the concrete quadruple (0, 0, 0, 0). -/
theorem C2_zero_guard_witness : (get_metrics_from_obs 0 0 0 0).Precision = 0 :=
  (C2_zero_guard 0 0 0 0).2.1 (by norm_num)

/-- C7: two runs of the scanner over the same sample sequence with the same
configuration produce identical accumulator contents, whatever accumulator
contents the aggregator object held before each run: the macro confusion matrix,
the per-class per-threshold matrices, the calibration accumulators, the counters
and the per-patch rows all agree. -/
theorem C7_scan_deterministic (cfg : MConfig) (ds : List MSample)
    (p1 p2 : Accum cfg.nbrClass) :
    (run_scan cfg p1 ds).macroCmA = (run_scan cfg p2 ds).macroCmA
  ∧ (run_scan cfg p1 ds).cmsOneClass = (run_scan cfg p2 ds).cmsOneClass
  ∧ (run_scan cfg p1 ds).histCounts = (run_scan cfg p2 ds).histCounts
  ∧ (run_scan cfg p1 ds).binSums = (run_scan cfg p2 ds).binSums
  ∧ (run_scan cfg p1 ds).binTrue = (run_scan cfg p2 ds).binTrue
  ∧ (run_scan cfg p1 ds).binTotal = (run_scan cfg p2 ds).binTotal
  ∧ (run_scan cfg p1 ds).counts = (run_scan cfg p2 ds).counts
  ∧ (run_scan cfg p1 ds).patchRows = (run_scan cfg p2 ds).patchRows :=
  ⟨rfl, rfl, rfl, rfl, rfl, rfl, rfl, rfl⟩

/-- C8: every known bit depth tag maps to exactly its documented divisor, and an
unknown tag does not fail: it is replaced by the default tag of 8 bits with
divisor 255, and the downstream bin computation behaves exactly as if the
default had been supplied. -/
theorem C8_bit_depth_fallback (tag : String) :
    (max_pixel_value ("keep") = 1 ∧ max_pixel_value ("8 bits") = 255
      ∧ max_pixel_value ("12 bits") = 4095 ∧ max_pixel_value ("14 bits") = 16383
      ∧ max_pixel_value ("16 bits") = 65535)
  ∧ ((depth_dict.map Prod.fst).contains tag = false →
      resolve_bit_depth tag = "8 bits" ∧ max_pixel_value tag = 255
      ∧ ∀ (bins : Option (List ℚ)) (nbrBins : ℕ),
          statistics_bins tag bins nbrBins = statistics_bins ("8 bits") bins nbrBins) := by
  constructor
  · refine ⟨?_, ?_, ?_, ?_, ?_⟩ <;> rfl
  · intro h
    have h1 : resolve_bit_depth tag = "8 bits" := by
      unfold resolve_bit_depth
      rw [h]
      rfl
    have h2 : max_pixel_value tag = 255 := by
      unfold max_pixel_value
      rw [h1]
      rfl
    have h3 : max_pixel_value ("8 bits") = 255 := rfl
    refine ⟨h1, h2, ?_⟩
    intro bins nbrBins
    simp only [statistics_bins, h2, h3]

/-- Witness for C8 at the concrete unknown tag 32 bits. -/
theorem C8_bit_depth_fallback_witness : resolve_bit_depth ("32 bits") = "8 bits" :=
  ((C8_bit_depth_fallback ("32 bits")).2 (by decide)).1

lemma micro_cm_none_tp (n : ℕ) (cm : CMat n) :
    micro_cm n cm none 0 0 = ∑ i, (get_obs_by_class_from_cm n cm i).tp := rfl

lemma micro_cm_none_fn (n : ℕ) (cm : CMat n) :
    micro_cm n cm none 0 1 = ∑ i, (get_obs_by_class_from_cm n cm i).fn := rfl

lemma micro_cm_none_fp (n : ℕ) (cm : CMat n) :
    micro_cm n cm none 1 0 = ∑ i, (get_obs_by_class_from_cm n cm i).fp := rfl

lemma micro_cm_none_tn (n : ℕ) (cm : CMat n) :
    micro_cm n cm none 1 1 = ∑ i, (get_obs_by_class_from_cm n cm i).tn := rfl

lemma micro_tp_add_fp (n : ℕ) (cm : CMat n) :
    micro_cm n cm none 0 0 + micro_cm n cm none 1 0 = ∑ j, ∑ k, cm j k := by
  rw [micro_cm_none_tp, micro_cm_none_fp, ← Finset.sum_add_distrib]
  have h : ∀ i : Fin n,
      (get_obs_by_class_from_cm n cm i).tp + (get_obs_by_class_from_cm n cm i).fp
        = ∑ j, cm j i := by
    intro i
    simp only [get_obs_by_class_from_cm]
    ring
  rw [Finset.sum_congr rfl (fun i _ => h i)]
  exact Finset.sum_comm

lemma micro_tp_add_fn (n : ℕ) (cm : CMat n) :
    micro_cm n cm none 0 0 + micro_cm n cm none 0 1 = ∑ j, ∑ k, cm j k := by
  rw [micro_cm_none_tp, micro_cm_none_fn, ← Finset.sum_add_distrib]
  have h : ∀ i : Fin n,
      (get_obs_by_class_from_cm n cm i).tp + (get_obs_by_class_from_cm n cm i).fn
        = ∑ j, cm i j := by
    intro i
    simp only [get_obs_by_class_from_cm]
    ring
  exact Finset.sum_congr rfl (fun i _ => h i)

/-- C4 (amended): for every macro confusion matrix with no user weights, the
metrics of the micro confusion matrix satisfy Precision equal to Recall equal to
F1-Score, for the 2-class case Accuracy also equals them, and the micro report
table contains only Precision (as OA) and IoU. With user weights, or with the
full metric chain including Accuracy for three or more classes, the original
claim fails (see the counterexample). -/
theorem C4_amended_micro_equalities :
    (∀ (n : ℕ) (cm : CMat n),
        (metrics_micro n cm none).Precision = (metrics_micro n cm none).Recall
      ∧ (metrics_micro n cm none).F1 = (metrics_micro n cm none).Precision
      ∧ ∀ w, micro_report n cm w = ((metrics_micro n cm w).Precision, (metrics_micro n cm w).IoU))
  ∧ (∀ cm : CMat 2,
      (metrics_micro 2 cm none).Accuracy = (metrics_micro 2 cm none).Precision) := by
  constructor
  · intro n cm
    have hfp := micro_tp_add_fp n cm
    have hfn := micro_tp_add_fn n cm
    have hPR : (metrics_micro n cm none).Precision = (metrics_micro n cm none).Recall := by
      show zeroDiv (micro_cm n cm none 0 0) (micro_cm n cm none 0 0 + micro_cm n cm none 1 0)
        = zeroDiv (micro_cm n cm none 0 0) (micro_cm n cm none 0 0 + micro_cm n cm none 0 1)
      rw [hfp, hfn]
    have key : ∀ a b : ℚ, a = b → zeroDiv (2 * a * b) (a + b) = a := by
      intro a b hab
      rw [← hab]
      exact f1_collapse a
    exact ⟨hPR, key _ _ hPR, fun w => rfl⟩
  · intro cm
    have e00 : micro_cm 2 cm none 0 0 = cm 0 0 + cm 1 1 := by
      rw [micro_cm_none_tp, Fin.sum_univ_two]
      rfl
    have e01 : micro_cm 2 cm none 0 1 = (cm 0 0 + cm 0 1 - cm 0 0) + (cm 1 0 + cm 1 1 - cm 1 1) := by
      rw [micro_cm_none_fn, Fin.sum_univ_two]
      simp only [get_obs_by_class_from_cm, Fin.sum_univ_two]
    have e10 : micro_cm 2 cm none 1 0 = (cm 0 0 + cm 1 0 - cm 0 0) + (cm 0 1 + cm 1 1 - cm 1 1) := by
      rw [micro_cm_none_fp, Fin.sum_univ_two]
      simp only [get_obs_by_class_from_cm, Fin.sum_univ_two]
    have e11 : micro_cm 2 cm none 1 1
        = (((cm 0 0 + cm 0 1) + (cm 1 0 + cm 1 1)) - (cm 0 0 + cm 0 1) - (cm 0 0 + cm 1 0) + cm 0 0)
          + (((cm 0 0 + cm 0 1) + (cm 1 0 + cm 1 1)) - (cm 1 0 + cm 1 1) - (cm 0 1 + cm 1 1) + cm 1 1) := by
      rw [micro_cm_none_tn, Fin.sum_univ_two]
      simp only [get_obs_by_class_from_cm, Fin.sum_univ_two]
    show zeroDiv (micro_cm 2 cm none 0 0 + micro_cm 2 cm none 1 1)
        (micro_cm 2 cm none 0 0 + micro_cm 2 cm none 0 1 + micro_cm 2 cm none 1 0
          + micro_cm 2 cm none 1 1)
      = zeroDiv (micro_cm 2 cm none 0 0) (micro_cm 2 cm none 0 0 + micro_cm 2 cm none 1 0)
    rw [e00, e01, e10, e11]
    have h1 : (cm 0 0 + cm 1 1)
        + ((((cm 0 0 + cm 0 1) + (cm 1 0 + cm 1 1)) - (cm 0 0 + cm 0 1) - (cm 0 0 + cm 1 0) + cm 0 0)
          + (((cm 0 0 + cm 0 1) + (cm 1 0 + cm 1 1)) - (cm 1 0 + cm 1 1) - (cm 0 1 + cm 1 1) + cm 1 1))
        = 2 * (cm 0 0 + cm 1 1) := by ring
    have h2 : (cm 0 0 + cm 1 1)
        + ((cm 0 0 + cm 0 1 - cm 0 0) + (cm 1 0 + cm 1 1 - cm 1 1))
        + ((cm 0 0 + cm 1 0 - cm 0 0) + (cm 0 1 + cm 1 1 - cm 1 1))
        + ((((cm 0 0 + cm 0 1) + (cm 1 0 + cm 1 1)) - (cm 0 0 + cm 0 1) - (cm 0 0 + cm 1 0) + cm 0 0)
          + (((cm 0 0 + cm 0 1) + (cm 1 0 + cm 1 1)) - (cm 1 0 + cm 1 1) - (cm 0 1 + cm 1 1) + cm 1 1))
        = 2 * ((cm 0 0 + cm 1 1) + ((cm 0 0 + cm 1 0 - cm 0 0) + (cm 0 1 + cm 1 1 - cm 1 1))) := by
      ring
    rw [h1, h2]
    exact zeroDiv_double _ _

/-- Counterexample for C4 as stated: on an unweighted 3-class macro matrix the
micro Accuracy differs from the micro Precision, and with user weights [1, 2]
on a 2-class macro matrix the micro Precision differs from the micro Recall. -/
theorem C4_counterexample :
    (metrics_micro 3 cmC4a none).Accuracy ≠ (metrics_micro 3 cmC4a none).Precision
  ∧ (metrics_micro 2 cmC4b (some [1, 2])).Precision
      ≠ (metrics_micro 2 cmC4b (some [1, 2])).Recall := by
  constructor
  · have h00 : micro_cm 3 cmC4a none 0 0 = 0 := by
      simp only [micro_cm, obsToCm2, get_obs_by_class_from_cm, cmC4a, Fin.sum_univ_three,
        Fin.val_zero, Fin.val_one, Fin.val_two]
      norm_num
    have h01 : micro_cm 3 cmC4a none 0 1 = 1 := by
      simp only [micro_cm, obsToCm2, get_obs_by_class_from_cm, cmC4a, Fin.sum_univ_three,
        Fin.val_zero, Fin.val_one, Fin.val_two]
      norm_num
    have h10 : micro_cm 3 cmC4a none 1 0 = 1 := by
      simp only [micro_cm, obsToCm2, get_obs_by_class_from_cm, cmC4a, Fin.sum_univ_three,
        Fin.val_zero, Fin.val_one, Fin.val_two]
      norm_num
    have h11 : micro_cm 3 cmC4a none 1 1 = 1 := by
      simp only [micro_cm, obsToCm2, get_obs_by_class_from_cm, cmC4a, Fin.sum_univ_three,
        Fin.val_zero, Fin.val_one, Fin.val_two]
      norm_num
    show zeroDiv (micro_cm 3 cmC4a none 0 0 + micro_cm 3 cmC4a none 1 1)
        (micro_cm 3 cmC4a none 0 0 + micro_cm 3 cmC4a none 0 1 + micro_cm 3 cmC4a none 1 0
          + micro_cm 3 cmC4a none 1 1)
      ≠ zeroDiv (micro_cm 3 cmC4a none 0 0) (micro_cm 3 cmC4a none 0 0 + micro_cm 3 cmC4a none 1 0)
    rw [h00, h01, h10, h11]
    norm_num [zeroDiv]
  · have b00 : micro_cm 2 cmC4b (some [1, 2]) 0 0 = 1 := by
      simp only [micro_cm, obsToCm2, get_obs_by_class_from_cm, cmC4b, Fin.sum_univ_two,
        Fin.val_zero, Fin.val_one]
      norm_num
    have b01 : micro_cm 2 cmC4b (some [1, 2]) 0 1 = 1 := by
      simp only [micro_cm, obsToCm2, get_obs_by_class_from_cm, cmC4b, Fin.sum_univ_two,
        Fin.val_zero, Fin.val_one]
      norm_num
    have b10 : micro_cm 2 cmC4b (some [1, 2]) 1 0 = 2 := by
      simp only [micro_cm, obsToCm2, get_obs_by_class_from_cm, cmC4b, Fin.sum_univ_two,
        Fin.val_zero, Fin.val_one]
      norm_num
    show zeroDiv (micro_cm 2 cmC4b (some [1, 2]) 0 0)
        (micro_cm 2 cmC4b (some [1, 2]) 0 0 + micro_cm 2 cmC4b (some [1, 2]) 1 0)
      ≠ zeroDiv (micro_cm 2 cmC4b (some [1, 2]) 0 0)
        (micro_cm 2 cmC4b (some [1, 2]) 0 0 + micro_cm 2 cmC4b (some [1, 2]) 0 1)
    rw [b00, b01, b10]
    norm_num [zeroDiv]

lemma foldl_preserve {α β : Type*} (P : α → Prop) (f : α → β → α) (l : List β) (a : α)
    (h0 : P a) (hstep : ∀ x b, P x → P (f x b)) : P (l.foldl f a) := by
  induction l generalizing a with
  | nil => exact h0
  | cons b l ih => exact ih (f a b) (hstep a b h0)

lemma stepCT_counts (cfg : MConfig) (idx : ℕ) (s : MSample) (i : ℕ) (t : ℚ)
    (acc : Accum cfg.nbrClass) (c : ℕ) :
    (stepCT cfg idx s i t acc).counts c
      = if c = i then acc.counts c + countNonzero (channelOf s.mask i) else acc.counts c := rfl

lemma stepCT_macroEntry (cfg : MConfig) (idx : ℕ) (s : MSample) (i : ℕ) (t : ℚ)
    (acc : Accum cfg.nbrClass) (r c : Fin cfg.nbrClass) :
    (stepCT cfg idx s i t acc).macroCmA r c
      = acc.macroCmA r c
        + (if t = cfg.threshold ∧ i = 0 then joint_cm cfg.nbrClass s r c else 0) := by
  show (if t = cfg.threshold ∧ i = 0 then acc.macroCmA + joint_cm cfg.nbrClass s
        else acc.macroCmA) r c = _
  split_ifs with h
  · rfl
  · simp

lemma stepThresholds_counts (cfg : MConfig) (idx : ℕ) (s : MSample) (i : ℕ)
    (acc : Accum cfg.nbrClass) (c : ℕ) :
    (stepThresholds cfg idx s i acc).counts c
      = acc.counts c
        + (if c = i then cfg.thresholdRange.length * countNonzero (channelOf s.mask i) else 0) := by
  unfold stepThresholds
  generalize cfg.thresholdRange = ts
  induction ts generalizing acc with
  | nil => simp
  | cons t ts ih =>
    rw [List.foldl_cons, ih, stepCT_counts]
    rcases eq_or_ne c i with hc | hc
    · subst hc
      simp only [eq_self_iff_true, if_true, List.length_cons]
      ring
    · simp [hc]

lemma stepThresholds_macroEntry (cfg : MConfig) (idx : ℕ) (s : MSample) (i : ℕ)
    (acc : Accum cfg.nbrClass) (r c : Fin cfg.nbrClass) :
    (stepThresholds cfg idx s i acc).macroCmA r c
      = acc.macroCmA r c
        + (if i = 0 then (cfg.thresholdRange.count cfg.threshold : ℚ) * joint_cm cfg.nbrClass s r c
           else 0) := by
  unfold stepThresholds
  have hcount : ∀ ts : List ℚ, ts.count cfg.threshold = ts.countP (fun t => t == cfg.threshold) :=
    fun ts => rfl
  generalize cfg.thresholdRange = ts
  induction ts generalizing acc with
  | nil => simp
  | cons t ts ih =>
    rw [List.foldl_cons, ih, stepCT_macroEntry]
    rcases eq_or_ne i 0 with hi | hi
    · rcases eq_or_ne t cfg.threshold with ht | ht
      · simp only [hi, ht, if_pos rfl, and_self, List.count_cons, if_pos rfl, beq_self_eq_true]
        push_cast
        ring
      · have hne : ¬(t = cfg.threshold ∧ i = 0) := fun hh => ht hh.1
        simp [hi, hne, ht, Ne.symm ht, List.count_cons]
    · have : ¬(t = cfg.threshold ∧ i = 0) := fun hh => hi hh.2
      simp [hi, this]

lemma classFold_counts (cfg : MConfig) (idx : ℕ) (s : MSample) (L : List ℕ)
    (acc : Accum cfg.nbrClass) (c : ℕ) :
    ((L.foldl (fun a i => stepThresholds cfg idx s i a) acc)).counts c
      = acc.counts c
        + L.count c * (cfg.thresholdRange.length * countNonzero (channelOf s.mask c)) := by
  induction L generalizing acc with
  | nil => simp
  | cons i L ih =>
    rw [List.foldl_cons, ih, stepThresholds_counts]
    rcases eq_or_ne c i with hc | hc
    · subst hc
      simp only [eq_self_iff_true, if_true, List.count_cons, beq_self_eq_true]
      ring
    · have hbeq : (c == i) = false := by
        simp [beq_eq_false_iff_ne, hc]
      simp [hc, List.count_cons, hbeq]

lemma classFold_macroEntry (cfg : MConfig) (idx : ℕ) (s : MSample) (L : List ℕ)
    (acc : Accum cfg.nbrClass) (r c : Fin cfg.nbrClass) :
    ((L.foldl (fun a i => stepThresholds cfg idx s i a) acc)).macroCmA r c
      = acc.macroCmA r c
        + (L.count 0 : ℚ) * (cfg.thresholdRange.count cfg.threshold : ℚ)
            * joint_cm cfg.nbrClass s r c := by
  induction L generalizing acc with
  | nil => simp
  | cons i L ih =>
    rw [List.foldl_cons, ih, stepThresholds_macroEntry]
    rcases eq_or_ne i 0 with hi | hi
    · subst hi
      simp only [eq_self_iff_true, if_true, List.count_cons, beq_self_eq_true]
      push_cast
      ring
    · have hbeq : (0 == i) = false := by
        simp [beq_eq_false_iff_ne]
        exact fun hh => hi hh.symm
      simp [hi, List.count_cons, hbeq]

lemma enumFrom_map_snd_sum {α β : Type*} [AddCommMonoid β] (k : ℕ) (l : List α)
    (f : α → β) :
    ((List.enumFrom k l).map (fun p => f p.2)).sum = (l.map f).sum := by
  induction l generalizing k with
  | nil => rfl
  | cons x l ih =>
    simp only [List.enumFrom, List.map_cons, List.sum_cons]
    rw [ih]

lemma enum_map_snd_sum {α β : Type*} [AddCommMonoid β] (l : List α) (f : α → β) :
    (l.enum.map (fun p => f p.2)).sum = (l.map f).sum :=
  enumFrom_map_snd_sum 0 l f

lemma dsFold_counts (cfg : MConfig) (ps : List (ℕ × MSample)) (acc : Accum cfg.nbrClass)
    (c : ℕ) (hc : c < cfg.nbrClass) :
    (ps.foldl (stepSample cfg) acc).counts c
      = acc.counts c
        + cfg.thresholdRange.length
            * (ps.map (fun p => countNonzero (channelOf p.2.mask c))).sum := by
  induction ps generalizing acc with
  | nil => simp
  | cons p ps ih =>
    rw [List.foldl_cons, ih]
    show (stepSample cfg acc p).counts c + _ = _
    unfold stepSample
    rw [classFold_counts]
    have hcnt : (List.range cfg.nbrClass).count c = 1 :=
      List.count_eq_one_of_mem (List.nodup_range _) (List.mem_range.mpr hc)
    rw [hcnt]
    simp only [List.map_cons, List.sum_cons]
    ring

lemma dsFold_macroEntry (cfg : MConfig) (ps : List (ℕ × MSample)) (acc : Accum cfg.nbrClass)
    (r c : Fin cfg.nbrClass) :
    (ps.foldl (stepSample cfg) acc).macroCmA r c
      = acc.macroCmA r c
        + ((List.range cfg.nbrClass).count 0 : ℚ)
            * (cfg.thresholdRange.count cfg.threshold : ℚ)
            * (ps.map (fun p => joint_cm cfg.nbrClass p.2 r c)).sum := by
  induction ps generalizing acc with
  | nil => simp
  | cons p ps ih =>
    rw [List.foldl_cons, ih]
    show (stepSample cfg acc p).macroCmA r c + _ = _
    unfold stepSample
    rw [classFold_macroEntry]
    simp only [List.map_cons, List.sum_cons]
    ring

lemma cmat_sum_apply (n : ℕ) (l : List (CMat n)) (r c : Fin n) :
    l.sum r c = (l.map (fun m => m r c)).sum := by
  induction l with
  | nil => rfl
  | cons m l ih =>
    simp only [List.sum_cons, List.map_cons, Pi.add_apply, ih]

/-- The per-class positive pixel counters after a scan: the length of the
threshold range times the positive pixel count of the class over the dataset. -/
lemma scan_counts_eq (cfg : MConfig) (ds : List MSample) (c : ℕ) (hc : c < cfg.nbrClass) :
    (scan_dataset cfg ds).counts c = cfg.thresholdRange.length * posPixels ds c := by
  unfold scan_dataset
  rw [dsFold_counts cfg ds.enum (initAccum cfg) c hc]
  have h0 : (initAccum cfg).counts c = 0 := rfl
  rw [h0, enum_map_snd_sum ds (fun m => countNonzero (channelOf m.mask c))]
  simp [posPixels]

/-- C6: when the operating threshold occurs exactly once in the threshold range
and there is at least one class, the joint argmax confusion matrix of each
sample is added into the running macro matrix exactly once per sample, so the
macro matrix after the scan is the sum over all samples of their joint
confusion matrices. -/
theorem C6_macro_added_once_per_sample (cfg : MConfig) (ds : List MSample)
    (h1 : cfg.thresholdRange.count cfg.threshold = 1) (h2 : 0 < cfg.nbrClass) :
    (scan_dataset cfg ds).macroCmA = (ds.map (fun s => joint_cm cfg.nbrClass s)).sum := by
  funext r c
  unfold scan_dataset
  rw [dsFold_macroEntry cfg ds.enum (initAccum cfg) r c]
  have h0 : (initAccum cfg).macroCmA r c = 0 := rfl
  have hc : (List.range cfg.nbrClass).count 0 = 1 :=
    List.count_eq_one_of_mem (List.nodup_range _) (List.mem_range.mpr h2)
  rw [h0, hc, h1, enum_map_snd_sum ds (fun m => joint_cm cfg.nbrClass m r c), cmat_sum_apply]
  have hmap : (ds.map (fun s => joint_cm cfg.nbrClass s)).map (fun m => m r c)
      = ds.map (fun s => joint_cm cfg.nbrClass s r c) := by
    rw [List.map_map]
    rfl
  rw [hmap]
  push_cast
  ring

/-- Witness for C6 at the concrete one-class configuration and one-sample
dataset. -/
theorem C6_macro_added_once_per_sample_witness :
    (scan_dataset cfgW dsW).macroCmA = (dsW.map (fun s => joint_cm cfgW.nbrClass s)).sum :=
  C6_macro_added_once_per_sample cfgW dsW (by norm_num [cfgW, List.count_cons]) (by norm_num [cfgW])

/-- The Weighted avg export computed from the scan counters equals the same
export computed directly from the per-class positive pixel counts: the common
threshold-range factor cancels between numerator and denominator. -/
lemma weighted_avg_cancel (cfg : MConfig) (ds : List MSample)
    (hT : cfg.thresholdRange ≠ []) (m : ℕ → ℚ) :
    weighted_avg_export m ((scan_dataset cfg ds).counts) cfg.nbrClass
      = round2 ((∑ i ∈ Finset.range cfg.nbrClass, m i * (posPixels ds i : ℚ))
          / (∑ i ∈ Finset.range cfg.nbrClass, (posPixels ds i : ℚ))) := by
  have hTn : ((cfg.thresholdRange.length : ℚ)) ≠ 0 := by
    have hpos : 0 < cfg.thresholdRange.length := List.length_pos.mpr hT
    exact_mod_cast hpos.ne'
  unfold weighted_avg_export
  have e1 : (∑ i ∈ Finset.range cfg.nbrClass, m i * (((scan_dataset cfg ds).counts i : ℕ) : ℚ))
      = (cfg.thresholdRange.length : ℚ)
          * ∑ i ∈ Finset.range cfg.nbrClass, m i * (posPixels ds i : ℚ) := by
    rw [Finset.mul_sum]
    refine Finset.sum_congr rfl ?_
    intro i hi
    rw [scan_counts_eq cfg ds i (Finset.mem_range.mp hi)]
    push_cast
    ring
  have e2 : (∑ i ∈ Finset.range cfg.nbrClass, (((scan_dataset cfg ds).counts i : ℕ) : ℚ))
      = (cfg.thresholdRange.length : ℚ)
          * ∑ i ∈ Finset.range cfg.nbrClass, (posPixels ds i : ℚ) := by
    rw [Finset.mul_sum]
    refine Finset.sum_congr rfl ?_
    intro i hi
    rw [scan_counts_eq cfg ds i (Finset.mem_range.mp hi)]
    push_cast
    ring
  rw [e1, e2]
  rcases eq_or_ne (∑ i ∈ Finset.range cfg.nbrClass, (posPixels ds i : ℚ)) 0 with hz | hz
  · rw [hz, mul_zero, div_zero, div_zero]
  · rw [mul_div_mul_left _ _ hTn]

/-- C9: after the scan, each per-class counter equals the number of thresholds
in the threshold range times the total positive pixel count of that class over
all sample masks, and the exported Weighted avg metrics are invariant under
this common multiplicative factor. -/
theorem C9_counts_threshold_factor (cfg : MConfig) (ds : List MSample)
    (hT : cfg.thresholdRange ≠ []) :
    (∀ c, c < cfg.nbrClass →
        (scan_dataset cfg ds).counts c = cfg.thresholdRange.length * posPixels ds c)
  ∧ (∀ m : ℕ → ℚ,
      weighted_avg_export m ((scan_dataset cfg ds).counts) cfg.nbrClass
        = round2 ((∑ i ∈ Finset.range cfg.nbrClass, m i * (posPixels ds i : ℚ))
            / (∑ i ∈ Finset.range cfg.nbrClass, (posPixels ds i : ℚ)))) :=
  ⟨fun c hc => scan_counts_eq cfg ds c hc, fun m => weighted_avg_cancel cfg ds hT m⟩

/-- Witness for C9 at the concrete one-class configuration and one-sample
dataset. -/
theorem C9_counts_threshold_factor_witness :
    (scan_dataset cfgW dsW).counts 0 = cfgW.thresholdRange.length * posPixels dsW 0 :=
  (C9_counts_threshold_factor cfgW dsW (by simp [cfgW])).1 0 (by norm_num [cfgW])

/-- C5: the Weighted avg entry of the macro report equals, for each metric
column, the per-class metric weighted by the observed positive pixel count of
the class, divided by the total positive pixel count over all classes, rounded
to 2 decimal places; the User weighted avg entry equals the per-class metric
weighted by the user weights, divided by the class count (not by the weight
total), rounded to 2 decimal places. -/
theorem C5_weighted_average_rows (cfg : MConfig) (ds : List MSample)
    (hT : cfg.thresholdRange ≠ []) :
    (∀ f : MetricsSet → ℚ,
        df_macro_weighted_avg cfg ds f
          = round2 ((∑ i ∈ Finset.range cfg.nbrClass,
              f ((metrics_by_class cfg.nbrClass ((scan_dataset cfg ds).macroCmA)).getD i
                  zeroMetrics) * (posPixels ds i : ℚ))
            / (∑ i ∈ Finset.range cfg.nbrClass, (posPixels ds i : ℚ))))
  ∧ (∀ (m : ℕ → ℚ) (w : List ℚ),
      user_weighted_avg_export m w cfg.nbrClass
        = round2 ((∑ i ∈ Finset.range cfg.nbrClass, m i * w.getD i 0) / (cfg.nbrClass : ℚ))) :=
  ⟨fun f => weighted_avg_cancel cfg ds hT
      (fun i => f ((metrics_by_class cfg.nbrClass ((scan_dataset cfg ds).macroCmA)).getD i
        zeroMetrics)),
    fun _ _ => rfl⟩

/-- Witness for C5 at the concrete one-class configuration and one-sample
dataset, on the IoU column. -/
theorem C5_weighted_average_rows_witness :
    df_macro_weighted_avg cfgW dsW MetricsSet.IoU
      = round2 ((∑ i ∈ Finset.range cfgW.nbrClass,
          MetricsSet.IoU ((metrics_by_class cfgW.nbrClass ((scan_dataset cfgW dsW).macroCmA)).getD i
              zeroMetrics) * (posPixels dsW i : ℚ))
        / (∑ i ∈ Finset.range cfgW.nbrClass, (posPixels dsW i : ℚ))) :=
  (C5_weighted_average_rows cfgW dsW (by simp [cfgW])).1 MetricsSet.IoU

lemma stepCT_lens (cfg : MConfig) (idx : ℕ) (s : MSample) (i : ℕ) (t : ℚ)
    (acc : Accum cfg.nbrClass) (h : calibLensOk cfg acc) :
    calibLensOk cfg (stepCT cfg idx s i t acc) := by
  intro c
  obtain ⟨h1, h2, h3⟩ := h c
  have hW : ∀ ids ws, (bincountW ids ws cfg.bins.length).length = cfg.bins.length := by
    intro ids ws
    simp [bincountW]
  have hC : ∀ ids, (bincountC ids cfg.bins.length).length = cfg.bins.length := by
    intro ids
    simp [bincountC]
  refine ⟨?_, ?_, ?_⟩
  · show (if t = cfg.threshold ∧ c = i then
        listAdd (acc.binSums c) (bincountW (binIds cfg s i) (predHist cfg s i) cfg.bins.length)
      else acc.binSums c).length = cfg.bins.length
    split_ifs
    · simp [listAdd, h1, hW]
    · exact h1
  · show (if t = cfg.threshold ∧ c = i then
        listAdd (acc.binTrue c)
          (bincountW (binIds cfg s i) (channelOf s.mask i) cfg.bins.length)
      else acc.binTrue c).length = cfg.bins.length
    split_ifs
    · simp [listAdd, h2, hW]
    · exact h2
  · show (if t = cfg.threshold ∧ c = i then
        listAdd (acc.binTotal c) (bincountC (binIds cfg s i) cfg.bins.length)
      else acc.binTotal c).length = cfg.bins.length
    split_ifs
    · simp [listAdd, h3, hC]
    · exact h3

lemma scan_lens (cfg : MConfig) (ds : List MSample) : calibLensOk cfg (scan_dataset cfg ds) := by
  unfold scan_dataset
  apply foldl_preserve (calibLensOk cfg)
  · intro c
    refine ⟨?_, ?_, ?_⟩ <;> simp [initAccum]
  · intro x p hx
    unfold stepSample
    apply foldl_preserve (calibLensOk cfg)
    · exact hx
    · intro y i hy
      unfold stepThresholds
      apply foldl_preserve (calibLensOk cfg)
      · exact hy
      · intro z t hz
        exact stepCT_lens cfg p.1 p.2 i t z hz

lemma selectNonzero_cons (y x : ℚ) (as' bs : List ℚ) :
    selectNonzero (y :: as') (x :: bs)
      = if x = 0 then selectNonzero as' bs else (y / x) :: selectNonzero as' bs := by
  simp only [selectNonzero, List.zip_cons_cons, List.filter_cons]
  rcases eq_or_ne x 0 with hx | hx
  · simp [hx]
  · simp [hx]

lemma selectNonzero_eq_filterMap (a b : List ℚ) (h : a.length = b.length) :
    selectNonzero a b = (List.range b.length).filterMap (fun j =>
      if b.getD j 0 = 0 then none else some (a.getD j 0 / b.getD j 0)) := by
  induction b generalizing a with
  | nil =>
    cases a with
    | nil => rfl
    | cons y as' => simp at h
  | cons x bs ih =>
    cases a with
    | nil => simp at h
    | cons y as' =>
      have h' : as'.length = bs.length := by simpa using h
      rw [selectNonzero_cons, List.length_cons, List.range_succ_eq_map]
      have htail : List.filterMap (fun j =>
            if (x :: bs).getD j 0 = 0 then none
            else some ((y :: as').getD j 0 / (x :: bs).getD j 0)) (List.map Nat.succ (List.range bs.length))
          = selectNonzero as' bs := by
        rw [List.filterMap_map, ih as' h']
        have hfun : ((fun j =>
              if (x :: bs).getD j 0 = 0 then none
              else some ((y :: as').getD j 0 / (x :: bs).getD j 0)) ∘ Nat.succ)
            = (fun j => if bs.getD j 0 = 0 then none else some (as'.getD j 0 / bs.getD j 0)) := by
          funext j
          simp [Function.comp, List.getD_cons_succ]
        rw [hfun]
      rcases eq_or_ne x 0 with hx | hx
      · rw [if_pos hx]
        rw [@List.filterMap_cons_none ℕ ℚ
          (fun j => if (x :: bs).getD j 0 = 0 then none
            else some ((y :: as').getD j 0 / (x :: bs).getD j 0))
          0 (List.map Nat.succ (List.range bs.length)) (by simp [hx])]
        exact htail.symm
      · rw [if_neg hx]
        rw [@List.filterMap_cons_some ℕ ℚ
          (fun j => if (x :: bs).getD j 0 = 0 then none
            else some ((y :: as').getD j 0 / (x :: bs).getD j 0))
          0 (List.map Nat.succ (List.range bs.length)) (y / x) (by simp [hx])]
        rw [htail]

/-- C3: after the full scan, for every class the exported calibration curve
consists exactly of the bins whose total observation count is nonzero, in bin
order, with prob_true the accumulated true label mass divided by the bin count
and prob_pred the accumulated prediction mass divided by the bin count; bins
with zero count are absent from the output. -/
theorem C3_calibration_curve_export (cfg : MConfig) (ds : List MSample) (c : ℕ) :
    prob_true cfg ds c = (List.range cfg.bins.length).filterMap (fun j =>
        if ((scan_dataset cfg ds).binTotal c).getD j 0 = 0 then none
        else some (((scan_dataset cfg ds).binTrue c).getD j 0
          / ((scan_dataset cfg ds).binTotal c).getD j 0))
  ∧ prob_pred cfg ds c = (List.range cfg.bins.length).filterMap (fun j =>
        if ((scan_dataset cfg ds).binTotal c).getD j 0 = 0 then none
        else some (((scan_dataset cfg ds).binSums c).getD j 0
          / ((scan_dataset cfg ds).binTotal c).getD j 0)) := by
  obtain ⟨h1, h2, h3⟩ := scan_lens cfg ds c
  constructor
  · rw [prob_true, selectNonzero_eq_filterMap _ _ (by rw [h2, h3]), h3]
  · rw [prob_pred, selectNonzero_eq_filterMap _ _ (by rw [h1, h3]), h3]

lemma bCalibUpdate_q (cfg : BConfig) (acc : BAccum) (s : BSample) :
    bCalibs (bCalibUpdate cfg acc s) = bCalibStepQ cfg (bCalibs acc) s := rfl

lemma bStep_bCalibs (cfg : BConfig) (t : ℚ) (acc : BAccum) (s : BSample) :
    bCalibs (bStep cfg t acc s)
      = if t = cfg.thresholdRange.getD 0 0 then bCalibStepQ cfg (bCalibs acc) s
        else bCalibs acc := by
  simp only [bStep]
  split_ifs <;> rfl

lemma bInnerFold_calibs (cfg : BConfig) (t : ℚ) (ds : List BSample) (acc : BAccum) :
    bCalibs (ds.foldl (bStep cfg t) acc)
      = if t = cfg.thresholdRange.getD 0 0 then ds.foldl (bCalibStepQ cfg) (bCalibs acc)
        else bCalibs acc := by
  induction ds generalizing acc with
  | nil => split_ifs <;> rfl
  | cons s ds ih =>
    rw [List.foldl_cons, ih]
    rcases eq_or_ne t (cfg.thresholdRange.getD 0 0) with ht | ht
    · rw [if_pos ht, if_pos ht, List.foldl_cons, bStep_bCalibs, if_pos ht]
    · rw [if_neg ht, if_neg ht, bStep_bCalibs, if_neg ht]

lemma bCalibs_foldl_update (cfg : BConfig) (l : List BSample) (acc : BAccum) :
    bCalibs (l.foldl (bCalibUpdate cfg) acc) = l.foldl (bCalibStepQ cfg) (bCalibs acc) := by
  induction l generalizing acc with
  | nil => rfl
  | cons s l ih => rw [List.foldl_cons, List.foldl_cons, ih, bCalibUpdate_q]

lemma bScan_calibs (cfg : BConfig) (ds : List BSample)
    (hcount : cfg.thresholdRange.count (cfg.thresholdRange.getD 0 0) = 1) :
    bCalibs (bScan cfg ds) = bCalibs (bCalibOnce cfg ds) := by
  obtain ⟨t0, rest, hr⟩ : ∃ t0 rest, cfg.thresholdRange = t0 :: rest := by
    cases hrr : cfg.thresholdRange with
    | nil =>
      rw [hrr] at hcount
      simp at hcount
    | cons a l => exact ⟨a, l, rfl⟩
  have hfirst : cfg.thresholdRange.getD 0 0 = t0 := by
    rw [hr]
    rfl
  have hnotmem : t0 ∉ rest := by
    have hcc := hcount
    rw [hfirst, hr, List.count_cons] at hcc
    simp only [beq_self_eq_true, if_pos rfl, if_true] at hcc
    have hz : rest.count t0 = 0 := by omega
    exact List.count_eq_zero.mp hz
  have hrest : ∀ (ts : List ℚ) (acc : BAccum), (∀ t ∈ ts, t ≠ t0) →
      bCalibs (ts.foldl (fun a t => ds.foldl (bStep cfg t) a) acc) = bCalibs acc := by
    intro ts
    induction ts with
    | nil =>
      intro acc _
      rfl
    | cons t ts ih =>
      intro acc hts
      rw [List.foldl_cons, ih _ (fun u hu => hts u (List.mem_cons_of_mem _ hu)),
        bInnerFold_calibs, hfirst, if_neg (hts t (List.mem_cons_self _ _))]
  show bCalibs (cfg.thresholdRange.foldl (fun a t => ds.foldl (bStep cfg t) a) (initBAccum cfg))
      = bCalibs (bCalibOnce cfg ds)
  rw [hr, List.foldl_cons,
    hrest rest _ (fun u hu hne => hnotmem (hne ▸ hu)),
    bInnerFold_calibs, hfirst, if_pos rfl, bCalibOnce, bCalibs_foldl_update]

/-- C10 (amended): in Metrics_Binary.get_metrics_by_threshold, provided the
first value of the threshold range occurs exactly once in the range (in
particular for any range of distinct thresholds), the calibration accumulators
hist_counts, bin_sums, bin_true and bin_total are each updated exactly once per
sample, during the iteration of the first threshold, so they equal the fold of
the per-sample calibration update over the dataset; this holds regardless of
the value of the operating threshold, and in particular whether or not it is a
member of the range. When the first value of the range recurs, the accumulators
are updated once per occurrence instead (see the counterexample). -/
theorem C10_amended_calibration_once (cfg : BConfig) (ds : List BSample)
    (hcount : cfg.thresholdRange.count (cfg.thresholdRange.getD 0 0) = 1) :
    ((bScan cfg ds).histCounts = (bCalibOnce cfg ds).histCounts
      ∧ (bScan cfg ds).binSums = (bCalibOnce cfg ds).binSums
      ∧ (bScan cfg ds).binTrue = (bCalibOnce cfg ds).binTrue
      ∧ (bScan cfg ds).binTotal = (bCalibOnce cfg ds).binTotal)
  ∧ ∀ t' : ℚ, bScan { cfg with threshold := t' } ds = bScan cfg ds := by
  constructor
  · have h := bScan_calibs cfg ds hcount
    exact ⟨congrArg (fun q => q.1) h, congrArg (fun q => q.2.1) h,
      congrArg (fun q => q.2.2.1) h, congrArg (fun q => q.2.2.2) h⟩
  · intro t'
    cases cfg
    rfl

/-- Witness for C10 at a concrete range of two distinct thresholds whose
operating threshold is not a member of the range. -/
theorem C10_amended_calibration_once_witness :
    (bScan cfgB2 dsB).binTotal = (bCalibOnce cfgB2 dsB).binTotal :=
  (C10_amended_calibration_once cfgB2 dsB
    (by norm_num [cfgB2, List.count_cons, List.getD_cons_zero])).1.2.2.2

/-- Counterexample for C10 as stated: with the threshold range repeating its
first value, the calibration accumulators of the scan are updated twice per
sample, so they differ from the once-per-sample accumulation. -/
theorem C10_counterexample :
    (bScan cfgB dsB).binTotal ≠ (bCalibOnce cfgB dsB).binTotal := by
  have hfirst : cfgB.thresholdRange.getD 0 0 = 1/2 := rfl
  have hk : bincountC (bIds cfgB sB) cfgB.bins.length = [0, 1] := by
    norm_num [bIds, bPredHist, cfgB, sB, digitize, bincountC, List.countP_cons, List.countP_nil,
      List.range_succ, decide_eq_true_eq]
  have hscan : bCalibs (bScan cfgB dsB)
      = dsB.foldl (bCalibStepQ cfgB) (dsB.foldl (bCalibStepQ cfgB) (bCalibs (initBAccum cfgB))) := by
    show bCalibs (List.foldl (fun a t => dsB.foldl (bStep cfgB t) a) (initBAccum cfgB)
        [1/2, 1/2]) = _
    rw [List.foldl_cons, List.foldl_cons, List.foldl_nil, bInnerFold_calibs, hfirst, if_pos rfl,
      bInnerFold_calibs, hfirst, if_pos rfl]
  have honce : bCalibs (bCalibOnce cfgB dsB)
      = dsB.foldl (bCalibStepQ cfgB) (bCalibs (initBAccum cfgB)) :=
    bCalibs_foldl_update cfgB dsB (initBAccum cfgB)
  have e1 : (bScan cfgB dsB).binTotal
      = listAdd (listAdd (initBAccum cfgB).binTotal (bincountC (bIds cfgB sB) cfgB.bins.length))
          (bincountC (bIds cfgB sB) cfgB.bins.length) := by
    have := congrArg (fun q => q.2.2.2) hscan
    simpa [dsB, bCalibStepQ, bCalibs] using this
  have e2 : (bCalibOnce cfgB dsB).binTotal
      = listAdd (initBAccum cfgB).binTotal (bincountC (bIds cfgB sB) cfgB.bins.length) := by
    have := congrArg (fun q => q.2.2.2) honce
    simpa [dsB, bCalibStepQ, bCalibs] using this
  have hz : (initBAccum cfgB).binTotal = [0, 0] := rfl
  rw [e1, e2, hz, hk]
  norm_num [listAdd]

end Odeon
